import Mathlib

/-!
Shallow embedding of the aw-inbox persistence core (src/db.rs, src/models.rs).

Notes are stored as rows whose `tags` column holds a JSON-serialized array of
strings (serde_json); the tag filter of `get_notes_db` runs a SQLite `LIKE`
over that serialized text, and `get_detailed_tags_db` aggregates over
`json_each` of it.  We model strings as `List Char`, timestamps as `Nat`
(RFC3339 text comparison on uniformly formatted timestamps is order-isomorphic
to chronological order), and row ids as `Nat` (SQLite AUTOINCREMENT, starting
at 1, monotonically fresh per table).
-/

namespace AwInbox

/-- ASCII case folding as performed by SQLite's default `LIKE` (which is
case-insensitive exactly on the ASCII letters A-Z). -/
def foldChar (c : Char) : Char :=
  if c = 'A' then 'a' else if c = 'B' then 'b' else if c = 'C' then 'c'
  else if c = 'D' then 'd' else if c = 'E' then 'e' else if c = 'F' then 'f'
  else if c = 'G' then 'g' else if c = 'H' then 'h' else if c = 'I' then 'i'
  else if c = 'J' then 'j' else if c = 'K' then 'k' else if c = 'L' then 'l'
  else if c = 'M' then 'm' else if c = 'N' then 'n' else if c = 'O' then 'o'
  else if c = 'P' then 'p' else if c = 'Q' then 'q' else if c = 'R' then 'r'
  else if c = 'S' then 's' else if c = 'T' then 't' else if c = 'U' then 'u'
  else if c = 'V' then 'v' else if c = 'W' then 'w' else if c = 'X' then 'x'
  else if c = 'Y' then 'y' else if c = 'Z' then 'z' else c

/-- A character that needs no JSON escaping and is not a JSON string
delimiter: not `"`, not `\`, and not an ASCII control character. -/
def plainChar (c : Char) : Bool :=
  c ≠ '\"' && c ≠ '\\' && 32 ≤ c.toNat

/-- A tag whose characters all need no JSON escaping. -/
def plainTag (t : List Char) : Bool := t.all plainChar

/-- serde_json escaping of one character inside a JSON string (restricted to
the `\"` and `\\` escapes; control characters do not occur in plain tags). -/
def escChar (c : Char) : List Char :=
  if c = '\"' ∨ c = '\\' then ['\\', c] else [c]

/-- serde_json escaping of a whole string body. -/
def escStr (s : List Char) : List Char := s.flatMap escChar

/-- a JSON string literal: `"` body `"`. -/
def quoteStr (s : List Char) : List Char := '\"' :: escStr s ++ ['\"']

/-- comma-separated JSON string literals (the inside of a JSON array). -/
def encodeInner : List (List Char) → List Char
  | [] => []
  | [t] => quoteStr t
  | t :: ts => quoteStr t ++ ',' :: encodeInner ts

/-- serde_json::to_string of a `Vec<String>`: the text stored in the `tags`
column by `create_note_db` / `update_note_db` / `add_comment_db`. -/
def encodeTags (ts : List (List Char)) : List Char := '[' :: encodeInner ts ++ [']']

/-- parse a JSON string body up to and including the closing quote, returning
the decoded body and the remaining input. -/
def parseStr : List Char → Option (List Char × List Char)
  | [] => none
  | c :: rest =>
    if c = '\"' then some ([], rest)
    else if c = '\\' then
      match rest with
      | [] => none
      | d :: rest' =>
        if d = '\"' ∨ d = '\\' then (parseStr rest').map (fun p => (d :: p.1, p.2)) else none
    else (parseStr rest).map (fun p => (c :: p.1, p.2))

/-- parse the items of a nonempty JSON string array after the opening `[`,
expecting the closing `]` to end the input (fuel-based so that it computes
by kernel reduction). -/
def parseItemsF : Nat → List Char → Option (List (List Char))
  | 0, _ => none
  | fuel + 1, l =>
    match l with
    | '\"' :: rest =>
      match parseStr rest with
      | none => none
      | some (s, r) =>
        match r with
        | [']'] => some [s]
        | ',' :: r' => (parseItemsF fuel r').map (fun ts => s :: ts)
        | _ => none
    | _ => none

/-- serde_json::from_str::<Vec<String>> on the tags column, as used by
`map_row_to_note` and `create_note_db`.  Returns `none` on malformed input
(the Rust code surfaces this as a serde error). -/
def decodeTags (l : List Char) : Option (List (List Char)) :=
  match l with
  | '[' :: rest => if rest = [']'] then some [] else parseItemsF rest.length rest
  | _ => none

/-- SQLite `LIKE` matching: `%` matches any sequence, `_` any single
character, and every other pattern character matches case-insensitively on
ASCII.  Structural recursion on the pattern (the `%` case tries every
suffix of the text). -/
def likeMatch : List Char → List Char → Bool
  | [], s => s.isEmpty
  | c :: p, s =>
    if c = '%' then s.tails.any (fun s' => likeMatch p s')
    else
      match s with
      | [] => false
      | d :: s' => (c = '_' || foldChar c = foldChar d) && likeMatch p s'

/-- the LIKE pattern `format!("%\"{}\"%", t)` built by `get_notes_db` for a
tag filter `t`. -/
def tagPattern (t : List Char) : List Char := '%' :: '\"' :: t ++ ['\"', '%']

/-- the string `Comment` as stored in the `relation_type` column. -/
def commentStr : List Char := ['C', 'o', 'm', 'm', 'e', 'n', 't']

/-- the string `Reference` as stored in the `relation_type` column. -/
def referenceStr : List Char := ['R', 'e', 'f', 'e', 'r', 'e', 'n', 'c', 'e']

/-- the string `Link` as stored in the `relation_type` column. -/
def linkStr : List Char := ['L', 'i', 'n', 'k']

/-- a row of the `notes` table: the `tags` column is TEXT holding the
serialized JSON array. -/
structure NoteRow where
  id : Nat
  content : List Char
  tagsText : List Char
  created_at : Nat
  updated_at : Nat
deriving DecidableEq

/-- a row of the `note_relations` table: `relation_type` is TEXT. -/
structure RelationRow where
  id : Nat
  source_note_id : Nat
  target_note_id : Nat
  relationTypeText : List Char
  created_at : Nat
deriving DecidableEq

/-- the backing SQLite database: both tables plus each table's AUTOINCREMENT
counter (SQLite row ids start at 1 and are strictly increasing). -/
structure Store where
  notes : List NoteRow
  relations : List RelationRow
  nextNoteId : Nat
  nextRelId : Nat
deriving DecidableEq

/-- models.rs `NoteRelationType`: closed variant Comment | Reference | Link. -/
inductive NoteRelationType where
  | Comment
  | Reference
  | Link
deriving DecidableEq

/-- models.rs `Note` as returned to callers (tags already deserialized). -/
structure Note where
  id : Nat
  content : List Char
  tags : List (List Char)
  created_at : Nat
  updated_at : Nat
deriving DecidableEq

/-- models.rs `NoteRelation` as returned to callers. -/
structure NoteRelation where
  id : Nat
  source_note_id : Nat
  target_note_id : Nat
  relation_type : NoteRelationType
  created_at : Nat
deriving DecidableEq

/-- models.rs `DetailedTag`. -/
structure DetailedTag where
  name : List Char
  count : Nat
  last_modified : Option Nat
deriving DecidableEq

/-- models.rs `CreateNotePayload`. -/
structure CreateNotePayload where
  content : List Char
  tags : Option (List (List Char))
  created_at : Option Nat

/-- models.rs `UpdateNotePayload`. -/
structure UpdateNotePayload where
  content : List Char
  tags : Option (List (List Char))

/-- models.rs `CreateNoteRelationPayload`. -/
structure CreateNoteRelationPayload where
  relation_type : NoteRelationType

/-- models.rs `CreateCommentPayload`. -/
structure CreateCommentPayload where
  content : List Char
  tags : Option (List (List Char))

/-- the two rusqlite error classes distinguished by the repository:
`Error::QueryReturnedNoRows` (mapped to HTTP 404 NotFound by
`handle_db_error` in lib.rs) and every other backing-store failure. -/
inductive DbError where
  | notFound
  | internal
deriving DecidableEq

/-- insert `x` into `l` in front of the first element `y` with `bf x y`
(insertion step of a stable insertion sort; models the output ordering the
SQL `ORDER BY` clauses guarantee). -/
def insertB {α : Type} (bf : α → α → Bool) (x : α) : List α → List α
  | [] => [x]
  | y :: ys => if bf x y then x :: y :: ys else y :: insertB bf x ys

/-- insertion sort by the may-precede relation `bf`. -/
def sortB {α : Type} (bf : α → α → Bool) : List α → List α
  | [] => []
  | x :: xs => insertB bf x (sortB bf xs)

/-- db.rs `map_row_to_note`: deserialize the `tags` column; a parse failure
is surfaced as an error (`none` here). -/
def map_row_to_note (r : NoteRow) : Option Note :=
  (decodeTags r.tagsText).map (fun ts => ⟨r.id, r.content, ts, r.created_at, r.updated_at⟩)

/-- db.rs `get_note_db`: `SELECT ... WHERE id = ?1`; `QueryReturnedNoRows`
is turned into `Ok(None)`.  Outer `none` models a genuine error (malformed
stored tags). -/
def get_note_db (st : Store) (note_id : Nat) : Option (Option Note) :=
  match st.notes.find? (fun n => n.id = note_id) with
  | none => some none
  | some row => (map_row_to_note row).map some

/-- db.rs `create_note_db`: serialize the tags (default empty), insert the
row inside a transaction, then re-parse the serialized tags for the returned
`Note` (the Rust code calls `serde_json::from_str` on `tags_json` again). -/
def create_note_db (st : Store) (payload : CreateNotePayload) (now : Nat) :
    Option (Store × Note) :=
  let created_at := payload.created_at.getD now
  let tagsJson := encodeTags (payload.tags.getD [])
  let id := st.nextNoteId
  let row : NoteRow := ⟨id, payload.content, tagsJson, created_at, created_at⟩
  (decodeTags tagsJson).map (fun parsed =>
    (⟨st.notes ++ [row], st.relations, id + 1, st.nextRelId⟩,
     ⟨id, payload.content, parsed, created_at, created_at⟩))

/-- row-by-row mapping of a query result, aborting on the first failing row
(the `for note_result in notes_iter { notes.push(note_result?) }` loop). -/
def mapMO {α β : Type} (f : α → Option β) : List α → Option (List β)
  | [] => some []
  | x :: xs =>
    match f x with
    | none => none
    | some y => (mapMO f xs).map (fun ys => y :: ys)

/-- db.rs `get_notes_db`: `WHERE 1=1 [AND tags LIKE '%"t"%'] [AND
created_at >= a] [AND created_at < b] ORDER BY created_at DESC [LIMIT l]`,
then each row is mapped through `map_row_to_note` (first parse failure
aborts).  A negative SQLite LIMIT means no limit. -/
def get_notes_db (st : Store) (limit : Option Int) (tag : Option (List Char))
    (created_after created_before : Option Nat) : Option (List Note) :=
  let rows := st.notes.filter (fun n =>
    (match tag with
     | none => true
     | some t => likeMatch (tagPattern t) n.tagsText) &&
    (match created_after with
     | none => true
     | some a => decide (a ≤ n.created_at)) &&
    (match created_before with
     | none => true
     | some b => decide (n.created_at < b)))
  let sorted := sortB (fun a b => b.created_at ≤ a.created_at) rows
  let limited := match limit with
    | none => sorted
    | some l => if l < 0 then sorted else sorted.take l.toNat
  mapMO map_row_to_note limited

/-- db.rs `update_note_db`: one `UPDATE notes SET content, tags, updated_at
WHERE id`; if no row was affected the result is `Ok(None)`, otherwise the
note is re-read via `get_note_db`.  Omitted tags serialize as `[]`
(`payload.tags.unwrap_or_default()`). -/
def update_note_db (st : Store) (note_id : Nat) (payload : UpdateNotePayload) (now : Nat) :
    Option (Store × Option Note) :=
  let tagsJson := encodeTags (payload.tags.getD [])
  let newNotes := st.notes.map (fun n =>
    if n.id = note_id then ⟨n.id, payload.content, tagsJson, n.created_at, now⟩ else n)
  let affected := (st.notes.filter (fun n => n.id = note_id)).length
  let st' : Store := ⟨newNotes, st.relations, st.nextNoteId, st.nextRelId⟩
  if affected = 0 then some (st', none)
  else (get_note_db st' note_id).map (fun r => (st', r))

/-- db.rs `delete_note_db`: `DELETE FROM notes WHERE id = ?1`, returning
whether a row was removed.  The `ON DELETE CASCADE` foreign keys declared in
`migrate` (with `PRAGMA foreign_keys = ON` set in `init_pool`) delete every
relation whose source or target is one of the deleted rows. -/
def delete_note_db (st : Store) (note_id : Nat) : Store × Bool :=
  let deleted := st.notes.filter (fun n => n.id = note_id)
  let newNotes := st.notes.filter (fun n => ¬ n.id = note_id)
  let newRels := st.relations.filter (fun r =>
    ¬ (deleted.any (fun n => n.id = r.source_note_id) ∨
       deleted.any (fun n => n.id = r.target_note_id)))
  (⟨newNotes, newRels, st.nextNoteId, st.nextRelId⟩, deleted.length > 0)

/-- the tag list of a stored row as `json_each` enumerates it; a row whose
tags text is not a valid JSON string array is skipped by the aggregation's
`WHERE json_valid(n.tags) AND json_type(n.tags) = 'array'` guard, which
coincides with contributing no elements. -/
def rowTags (n : NoteRow) : List (List Char) := (decodeTags n.tagsText).getD []

/-- the rows of `notes n, json_each(n.tags) jt`: one (tag value, note
updated_at) pair per array element, duplicates included. -/
def tagOccs (notes : List NoteRow) : List (List Char × Nat) :=
  notes.flatMap (fun n => (rowTags n).map (fun t => (t, n.updated_at)))

/-- `COUNT(*)` of the `json_each` rows grouped on one tag value. -/
def occCount (notes : List NoteRow) (t : List Char) : Nat :=
  ((tagOccs notes).filter (fun o => o.1 = t)).length

/-- maximum of a list of timestamps, `none` on the empty list (SQL `MAX`). -/
def listMaxO : List Nat → Option Nat
  | [] => none
  | a :: l =>
    match listMaxO l with
    | none => some a
    | some m => some (max a m)

/-- `MAX(n.updated_at)` of the `json_each` rows grouped on one tag value. -/
def occLastModified (notes : List NoteRow) (t : List Char) : Option Nat :=
  listMaxO (((tagOccs notes).filter (fun o => o.1 = t)).map (fun o => o.2))

/-- db.rs `get_detailed_tags_db`: `SELECT jt.value, COUNT(*),
MAX(n.updated_at) FROM notes n, json_each(n.tags) jt GROUP BY jt.value
ORDER BY count DESC`. -/
def get_detailed_tags_db (st : Store) : List DetailedTag :=
  let occ := tagOccs st.notes
  let names := (occ.map (fun o => o.1)).dedup
  sortB (fun a b => b.count ≤ a.count)
    (names.map (fun t => ⟨t, occCount st.notes t, occLastModified st.notes t⟩))

/-- db.rs `map_row_to_relation`: decode the `relation_type` TEXT, silently
defaulting every unrecognized string to `Reference`. -/
def decodeRelType (s : List Char) : NoteRelationType :=
  if s = commentStr then NoteRelationType.Comment
  else if s = referenceStr then NoteRelationType.Reference
  else if s = linkStr then NoteRelationType.Link
  else NoteRelationType.Reference

/-- the TEXT written for a `NoteRelationType` by the insert paths. -/
def encodeRelType : NoteRelationType → List Char
  | NoteRelationType.Comment => commentStr
  | NoteRelationType.Reference => referenceStr
  | NoteRelationType.Link => linkStr

/-- db.rs `map_row_to_relation` on a whole row. -/
def map_row_to_relation (r : RelationRow) : NoteRelation :=
  ⟨r.id, r.source_note_id, r.target_note_id, decodeRelType r.relationTypeText, r.created_at⟩

/-- db.rs `get_relations_for_note_db`: `WHERE target_note_id = ? [AND
relation_type = ?] ORDER BY created_at`. -/
def get_relations_for_note_db (st : Store) (note_id : Nat)
    (relation_type : Option NoteRelationType) : List NoteRelation :=
  let rows := st.relations.filter (fun r =>
    r.target_note_id = note_id &&
    (match relation_type with
     | none => true
     | some rt => r.relationTypeText = encodeRelType rt))
  (sortB (fun a b => a.created_at ≤ b.created_at) rows).map map_row_to_relation

/-- db.rs `create_note_relation_db`: check that both endpoint notes exist
(`SELECT 1 FROM notes WHERE id = ? LIMIT 1`), returning
`Error::QueryReturnedNoRows` (HTTP NotFound) when either is missing, then
insert the relation row. -/
def create_note_relation_db (st : Store) (source_note_id target_note_id : Nat)
    (payload : CreateNoteRelationPayload) (now : Nat) : Store × Except DbError NoteRelation :=
  let source_exists := st.notes.any (fun n => n.id = source_note_id)
  let target_exists := st.notes.any (fun n => n.id = target_note_id)
  if ¬ source_exists ∨ ¬ target_exists then (st, Except.error DbError.notFound)
  else
    let row : RelationRow :=
      ⟨st.nextRelId, source_note_id, target_note_id, encodeRelType payload.relation_type, now⟩
    (⟨st.notes, st.relations ++ [row], st.nextNoteId, st.nextRelId + 1⟩,
     Except.ok ⟨row.id, source_note_id, target_note_id, payload.relation_type, now⟩)

/-- db.rs `add_comment_db`: check the target note exists (returning
`Error::QueryReturnedNoRows`, HTTP NotFound, otherwise), then inside one
transaction insert the comment note and the Comment-typed relation and
commit.  `edgeFail` injects a failure of the second (edge) insert: the
transaction is dropped without commit, which rolls the note insert back, so
the store is returned unchanged. -/
def add_comment_db (st : Store) (target_note_id : Nat) (payload : CreateCommentPayload)
    (now : Nat) (edgeFail : Bool) : Store × Except DbError (Note × NoteRelation) :=
  let target_exists := st.notes.any (fun n => n.id = target_note_id)
  if ¬ target_exists then (st, Except.error DbError.notFound)
  else if edgeFail then (st, Except.error DbError.internal)
  else
    let tags := payload.tags.getD []
    let tagsJson := encodeTags tags
    let noteRow : NoteRow := ⟨st.nextNoteId, payload.content, tagsJson, now, now⟩
    let relRow : RelationRow := ⟨st.nextRelId, noteRow.id, target_note_id, commentStr, now⟩
    (⟨st.notes ++ [noteRow], st.relations ++ [relRow], st.nextNoteId + 1, st.nextRelId + 1⟩,
     Except.ok (⟨noteRow.id, payload.content, tags, now, now⟩,
                ⟨relRow.id, noteRow.id, target_note_id, NoteRelationType.Comment, now⟩))

/-- the store states reachable through the repository's write operations,
starting from a freshly migrated empty database (SQLite row ids start at
1). -/
inductive Reachable : Store → Prop where
  | empty : Reachable ⟨[], [], 1, 1⟩
  | create {st st' p now n} (h : Reachable st)
      (hc : create_note_db st p now = some (st', n)) : Reachable st'
  | update {st st' note_id p now r} (h : Reachable st)
      (hu : update_note_db st note_id p now = some (st', r)) : Reachable st'
  | del {st note_id} (h : Reachable st) : Reachable (delete_note_db st note_id).1
  | rel {st s t p now} (h : Reachable st) :
      Reachable (create_note_relation_db st s t p now).1
  | comment {st t p now ef} (h : Reachable st) :
      Reachable (add_comment_db st t p now ef).1

section RoundTrip

theorem escStr_nil : escStr [] = [] := rfl

theorem escStr_cons (c : Char) (s : List Char) : escStr (c :: s) = escChar c ++ escStr s := by
  simp [escStr]

theorem escStr_eq_self {s : List Char} (h : plainTag s = true) : escStr s = s := by
  induction s with
  | nil => rfl
  | cons c s' ih =>
    simp only [plainTag, List.all_cons, Bool.and_eq_true] at h
    have hc : ¬ (c = '\"' ∨ c = '\\') := by
      have hc' := h.1
      simp only [plainChar, Bool.and_eq_true, decide_eq_true_eq, bne_iff_ne, ne_eq] at hc'
      tauto
    have ih' : escStr s' = s' := ih h.2
    rw [escStr_cons, ih']
    simp [escChar, hc]

theorem parseStr_round (s : List Char) : ∀ r, parseStr (escStr s ++ '\"' :: r) = some (s, r) := by
  induction s with
  | nil =>
    intro r
    rw [escStr_nil, List.nil_append, parseStr.eq_def]
    simp
  | cons c s' ih =>
    intro r
    by_cases hc : c = '\"' ∨ c = '\\'
    · have hshape : escStr (c :: s') = '\\' :: c :: escStr s' := by
        rw [escStr_cons]
        simp [escChar, hc]
      rw [hshape]
      have h1 : ('\\' : Char) ≠ '\"' := by decide
      rw [List.cons_append, List.cons_append, parseStr.eq_def]
      simp only [h1, if_false, if_pos rfl, reduceIte]
      simp [hc, ih r]
    · have hshape : escStr (c :: s') = c :: escStr s' := by
        rw [escStr_cons]
        simp [escChar, hc]
      rw [hshape]
      push_neg at hc
      rw [List.cons_append, parseStr.eq_def]
      simp [hc.1, hc.2, ih r]

theorem encodeInner_cons_head (a : List Char) (tl : List (List Char)) :
    ∃ w, encodeInner (a :: tl) = '\"' :: w := by
  cases tl with
  | nil => exact ⟨escStr a ++ ['\"'], by simp [encodeInner, quoteStr]⟩
  | cons b tl' => exact ⟨escStr a ++ ['\"'] ++ ',' :: encodeInner (b :: tl'), by
      simp [encodeInner, quoteStr]⟩

theorem encodeInner_cons₂ (a b : List Char) (tl : List (List Char)) :
    encodeInner (a :: b :: tl) = quoteStr a ++ ',' :: encodeInner (b :: tl) := rfl

theorem length_le_encodeInner (ts : List (List Char)) :
    ts.length ≤ (encodeInner ts).length + 1 := by
  induction ts with
  | nil => simp [encodeInner]
  | cons a tl ih =>
    cases tl with
    | nil => simp [encodeInner, quoteStr]
    | cons b tl' =>
      rw [encodeInner_cons₂]
      simp only [List.length_cons, List.length_append, quoteStr] at ih ⊢
      omega

theorem parseItemsF_round (ts : List (List Char)) :
    ∀ fuel, ts ≠ [] → ts.length ≤ fuel →
      parseItemsF fuel (encodeInner ts ++ [']']) = some ts := by
  induction ts with
  | nil => intro fuel h; exact absurd rfl h
  | cons a tl ih =>
    intro fuel _ hlen
    cases fuel with
    | zero => simp at hlen
    | succ f =>
      cases tl with
      | nil =>
        have hshape : encodeInner [a] ++ [']'] = '\"' :: (escStr a ++ '\"' :: [']']) := by
          simp [encodeInner, quoteStr]
        rw [hshape, parseItemsF.eq_def]
        simp [parseStr_round a [']']]
      | cons b tl' =>
        have hshape : encodeInner (a :: b :: tl') ++ [']'] =
            '\"' :: (escStr a ++ '\"' :: (',' :: (encodeInner (b :: tl') ++ [']']))) := by
          rw [encodeInner_cons₂]
          simp [quoteStr]
        rw [hshape, parseItemsF.eq_def]
        have hrec := ih f (by simp) (by simpa using Nat.le_of_succ_le_succ hlen)
        simp [parseStr_round a (',' :: (encodeInner (b :: tl') ++ [']'])), hrec]

theorem decode_encode (ts : List (List Char)) : decodeTags (encodeTags ts) = some ts := by
  cases ts with
  | nil => decide
  | cons a tl =>
    obtain ⟨w, hw⟩ := encodeInner_cons_head a tl
    have hne : encodeInner (a :: tl) ++ [']'] ≠ [']'] := by
      rw [hw]
      intro h
      have := congrArg List.length h
      simp at this
    have hfuel : (a :: tl).length ≤ (encodeInner (a :: tl) ++ [']']).length := by
      have hl := length_le_encodeInner (a :: tl)
      simp only [List.length_append, List.length_cons] at hl ⊢
      omega
    rw [encodeTags, decodeTags.eq_def]
    show (if encodeInner (a :: tl) ++ [']'] = [']'] then some [] else
        parseItemsF (encodeInner (a :: tl) ++ [']']).length (encodeInner (a :: tl) ++ [']'])) =
      some (a :: tl)
    rw [if_neg hne]
    exact parseItemsF_round (a :: tl) _ (by simp) hfuel

end RoundTrip

section SortLemmas

theorem mem_insertB {α : Type} (bf : α → α → Bool) (x a : α) :
    ∀ l : List α, (a ∈ insertB bf x l ↔ a = x ∨ a ∈ l) := by
  intro l
  induction l with
  | nil => simp [insertB]
  | cons y ys ih =>
    simp only [insertB]
    split
    · simp
    · simp only [List.mem_cons, ih]
      tauto

theorem perm_insertB {α : Type} (bf : α → α → Bool) (x : α) :
    ∀ l : List α, (insertB bf x l).Perm (x :: l) := by
  intro l
  induction l with
  | nil => simp [insertB]
  | cons y ys ih =>
    simp only [insertB]
    split
    · exact List.Perm.refl _
    · exact (ih.cons y).trans (List.Perm.swap x y ys)

theorem perm_sortB {α : Type} (bf : α → α → Bool) :
    ∀ l : List α, (sortB bf l).Perm l := by
  intro l
  induction l with
  | nil => simp [sortB]
  | cons x xs ih =>
    exact (perm_insertB bf x (sortB bf xs)).trans (ih.cons x)

theorem mem_sortB {α : Type} (bf : α → α → Bool) (a : α) (l : List α) :
    a ∈ sortB bf l ↔ a ∈ l :=
  (perm_sortB bf l).mem_iff

theorem pairwise_insertB {α : Type} (bf : α → α → Bool)
    (hT : ∀ a b, bf a b = false → bf b a = true)
    (htr : ∀ a b c, bf a b = true → bf b c = true → bf a c = true)
    (x : α) : ∀ l : List α, l.Pairwise (fun a b => bf a b = true) →
      (insertB bf x l).Pairwise (fun a b => bf a b = true) := by
  intro l
  induction l with
  | nil => intro _; simp [insertB]
  | cons y ys ih =>
    intro hl
    rw [List.pairwise_cons] at hl
    obtain ⟨hy, hys⟩ := hl
    simp only [insertB]
    split
    · rename_i hxy
      refine List.Pairwise.cons ?_ (List.Pairwise.cons hy hys)
      intro z hz
      rcases List.mem_cons.mp hz with rfl | hz'
      · exact hxy
      · exact htr x y z hxy (hy z hz')
    · rename_i hxy
      refine List.Pairwise.cons ?_ (ih hys)
      intro z hz
      rcases (mem_insertB bf x z ys).mp hz with rfl | hz'
      · exact hT z y (by simpa using hxy)
      · exact hy z hz'

theorem pairwise_sortB {α : Type} (bf : α → α → Bool)
    (hT : ∀ a b, bf a b = false → bf b a = true)
    (htr : ∀ a b c, bf a b = true → bf b c = true → bf a c = true) :
    ∀ l : List α, (sortB bf l).Pairwise (fun a b => bf a b = true) := by
  intro l
  induction l with
  | nil => simp [sortB]
  | cons x xs ih => exact pairwise_insertB bf hT htr x (sortB bf xs) ih

end SortLemmas

section StoreHelpers

theorem find?_append_of_none {α : Type} (p : α → Bool) (l₁ l₂ : List α)
    (h : l₁.find? p = none) : (l₁ ++ l₂).find? p = l₂.find? p := by
  induction l₁ with
  | nil => simp
  | cons a t ih =>
    rw [List.find?_eq_none] at h
    have ha : p a = false := by
      have := h a (List.mem_cons_self a t)
      simp_all
    rw [List.cons_append, List.find?_cons_of_neg _ (by simp [ha])]
    exact ih (List.find?_eq_none.mpr (fun x hx => h x (List.mem_cons_of_mem a hx)))

theorem find?_singleton_self (n : NoteRow) :
    [n].find? (fun m => m.id = n.id) = some n := by
  simp [List.find?_cons_of_pos]

end StoreHelpers

/-- C6: `get` applied to the id returned by `create(content, tags)` returns a
note whose content and tags are identical to what was supplied, with the tag
sequence (order and duplicates) preserved verbatim.  The freshness hypothesis
is SQLite's AUTOINCREMENT guarantee: no stored row already carries the id the
insert will assign. -/
theorem create_get_round_trip (st : Store) (p : CreateNotePayload) (now : Nat)
    (ts : List (List Char)) (hp : p.tags = some ts)
    (hfresh : ∀ n ∈ st.notes, n.id ≠ st.nextNoteId) :
    ∃ st' note, create_note_db st p now = some (st', note) ∧
      note.content = p.content ∧ note.tags = ts ∧
      get_note_db st' note.id = some (some note) := by
  have hdec := decode_encode ts
  refine ⟨⟨st.notes ++ [⟨st.nextNoteId, p.content, encodeTags ts, p.created_at.getD now,
      p.created_at.getD now⟩], st.relations, st.nextNoteId + 1, st.nextRelId⟩,
    ⟨st.nextNoteId, p.content, ts, p.created_at.getD now, p.created_at.getD now⟩, ?_, rfl, rfl, ?_⟩
  · simp only [create_note_db, hp, Option.getD_some, hdec]
    rfl
  · have hnone : st.notes.find? (fun n => n.id = st.nextNoteId) = none := by
      rw [List.find?_eq_none]
      intro n hn
      simp [hfresh n hn]
    simp only [get_note_db, find?_append_of_none _ _ _ hnone]
    rw [show ([(⟨st.nextNoteId, p.content, encodeTags ts, p.created_at.getD now,
        p.created_at.getD now⟩ : NoteRow)].find? (fun n => n.id = st.nextNoteId)) =
        some ⟨st.nextNoteId, p.content, encodeTags ts, p.created_at.getD now,
        p.created_at.getD now⟩ from by simp]
    simp [map_row_to_note, hdec]

/-- C6 witness: concrete round trip from the empty store with duplicated,
unordered tags. -/
theorem create_get_round_trip_witness :
    ∃ st' note, create_note_db ⟨[], [], 1, 1⟩ ⟨['h'], some [['y'], ['x'], ['x']], none⟩ 7 =
        some (st', note) ∧
      note.content = ['h'] ∧ note.tags = [['y'], ['x'], ['x']] ∧
      get_note_db st' note.id = some (some note) :=
  create_get_round_trip ⟨[], [], 1, 1⟩ ⟨['h'], some [['y'], ['x'], ['x']], none⟩ 7
    [['y'], ['x'], ['x']] rfl (by simp)

/-- C4: when either endpoint of a requested relation does not exist,
`create_note_relation_db` returns `Error::QueryReturnedNoRows` (which
lib.rs's `handle_db_error` maps to HTTP 404 NotFound, not a generic error)
and leaves the whole store — in particular the relation table — unchanged. -/
theorem create_relation_missing_endpoint (st : Store) (src tgt : Nat)
    (p : CreateNoteRelationPayload) (now : Nat)
    (h : (¬ ∃ n ∈ st.notes, n.id = src) ∨ (¬ ∃ n ∈ st.notes, n.id = tgt)) :
    create_note_relation_db st src tgt p now = (st, Except.error DbError.notFound) := by
  have h' : ¬ st.notes.any (fun n => n.id = src) = true ∨
      ¬ st.notes.any (fun n => n.id = tgt) = true := by
    rcases h with h | h
    · left; simpa [List.any_eq_true] using h
    · right; simpa [List.any_eq_true] using h
  simp only [create_note_relation_db]
  rw [if_pos]
  exact h'

/-- C4 witness: creating a relation from note 1 to the absent note 2 in a
one-note store fails with NotFound and inserts nothing. -/
theorem create_relation_missing_endpoint_witness :
    create_note_relation_db ⟨[⟨1, [], encodeTags [], 0, 0⟩], [], 2, 1⟩ 1 2
      ⟨NoteRelationType.Link⟩ 5 =
      (⟨[⟨1, [], encodeTags [], 0, 0⟩], [], 2, 1⟩, Except.error DbError.notFound) :=
  create_relation_missing_endpoint _ 1 2 ⟨NoteRelationType.Link⟩ 5 (by
    right
    simp)

/-- C3: `add_comment_db` first verifies the target exists, returning
NotFound with the store untouched when it does not; when the target exists
the new note and the Comment relation from it to the target are committed
as one transaction, and a forced failure of the edge insert rolls the note
insert back, so afterward either both rows persist or neither does. -/
theorem add_comment_atomic (st : Store) (target : Nat) (p : CreateCommentPayload) (now : Nat) :
    ((¬ ∃ n ∈ st.notes, n.id = target) → ∀ ef,
      add_comment_db st target p now ef = (st, Except.error DbError.notFound))
    ∧ ((∃ n ∈ st.notes, n.id = target) →
      add_comment_db st target p now true = (st, Except.error DbError.internal))
    ∧ ((∃ n ∈ st.notes, n.id = target) →
      add_comment_db st target p now false =
        (⟨st.notes ++ [⟨st.nextNoteId, p.content, encodeTags (p.tags.getD []), now, now⟩],
          st.relations ++ [⟨st.nextRelId, st.nextNoteId, target, commentStr, now⟩],
          st.nextNoteId + 1, st.nextRelId + 1⟩,
         Except.ok (⟨st.nextNoteId, p.content, p.tags.getD [], now, now⟩,
                    ⟨st.nextRelId, st.nextNoteId, target, NoteRelationType.Comment, now⟩))) := by
  refine ⟨?_, ?_, ?_⟩
  · intro h ef
    have h' : ¬ st.notes.any (fun n => n.id = target) = true := by
      simpa [List.any_eq_true] using h
    simp [add_comment_db, h']
  · intro h
    have h' : st.notes.any (fun n => n.id = target) = true := by
      simpa [List.any_eq_true] using h
    simp [add_comment_db, h']
  · intro h
    have h' : st.notes.any (fun n => n.id = target) = true := by
      simpa [List.any_eq_true] using h
    simp [add_comment_db, h']

/-- C3 witness: against a one-note store, a missing target yields NotFound
and an unchanged store, a forced edge failure rolls everything back, and the
success path appends exactly the comment note and its Comment relation. -/
theorem add_comment_atomic_witness :
    (add_comment_db ⟨[⟨1, [], encodeTags [], 0, 0⟩], [], 2, 1⟩ 9 ⟨['c'], none⟩ 4 false =
      (⟨[⟨1, [], encodeTags [], 0, 0⟩], [], 2, 1⟩, Except.error DbError.notFound))
    ∧ (add_comment_db ⟨[⟨1, [], encodeTags [], 0, 0⟩], [], 2, 1⟩ 1 ⟨['c'], none⟩ 4 true =
      (⟨[⟨1, [], encodeTags [], 0, 0⟩], [], 2, 1⟩, Except.error DbError.internal))
    ∧ (add_comment_db ⟨[⟨1, [], encodeTags [], 0, 0⟩], [], 2, 1⟩ 1 ⟨['c'], none⟩ 4 false =
      (⟨[⟨1, [], encodeTags [], 0, 0⟩, ⟨2, ['c'], encodeTags [], 4, 4⟩],
        [⟨1, 2, 1, commentStr, 4⟩], 3, 2⟩,
       Except.ok (⟨2, ['c'], [], 4, 4⟩, ⟨1, 2, 1, NoteRelationType.Comment, 4⟩))) :=
  ⟨(add_comment_atomic ⟨[⟨1, [], encodeTags [], 0, 0⟩], [], 2, 1⟩ 9 ⟨['c'], none⟩ 4).1
      (by decide) false,
   (add_comment_atomic ⟨[⟨1, [], encodeTags [], 0, 0⟩], [], 2, 1⟩ 1 ⟨['c'], none⟩ 4).2.1
      ⟨⟨1, [], encodeTags [], 0, 0⟩, by simp, rfl⟩,
   (add_comment_atomic ⟨[⟨1, [], encodeTags [], 0, 0⟩], [], 2, 1⟩ 1 ⟨['c'], none⟩ 4).2.2
      ⟨⟨1, [], encodeTags [], 0, 0⟩, by simp, rfl⟩⟩

/-- C9: a stored relation whose `relation_type` text is none of `Comment`,
`Reference`, `Link` is silently read back as `Reference` by
`map_row_to_relation` rather than rejected. -/
theorem unrecognized_relation_type_defaults (r : RelationRow)
    (h1 : r.relationTypeText ≠ commentStr)
    (h2 : r.relationTypeText ≠ referenceStr)
    (h3 : r.relationTypeText ≠ linkStr) :
    (map_row_to_relation r).relation_type = NoteRelationType.Reference := by
  simp [map_row_to_relation, decodeRelType, h1, h2, h3]

/-- C9 witness: a relation row stored with the unrecognized type text
`Bogus` reads back as `Reference`. -/
theorem unrecognized_relation_type_defaults_witness :
    (map_row_to_relation ⟨1, 1, 2, ['B', 'o', 'g', 'u', 's'], 0⟩).relation_type =
      NoteRelationType.Reference :=
  unrecognized_relation_type_defaults ⟨1, 1, 2, ['B', 'o', 'g', 'u', 's'], 0⟩
    (by decide) (by decide) (by decide)

/-- C10: `update_note_db` with the tags field omitted
(`payload.tags.unwrap_or_default()`) behaves exactly like supplying an empty
tag list, and every note it returns carries the empty tag list — the
previous tags are not preserved. -/
theorem update_tags_none_empty (st : Store) (note_id : Nat) (content : List Char) (now : Nat) :
    update_note_db st note_id ⟨content, none⟩ now =
      update_note_db st note_id ⟨content, some []⟩ now
    ∧ (∀ st' n', update_note_db st note_id ⟨content, none⟩ now = some (st', some n') →
        n'.tags = []) := by
  constructor
  · rfl
  · intro st' n' h
    simp only [update_note_db] at h
    split at h
    · simp at h
    · simp only [Option.map_eq_some'] at h
      obtain ⟨r, hr, hpair⟩ := h
      have hr2 : r = some n' := congrArg Prod.snd hpair
      subst hr2
      simp only [get_note_db] at hr
      split at hr
      · simp at hr
      · rename_i row hrow
        simp only [map_row_to_note, Option.map_eq_some'] at hr
        obtain ⟨ts, hts, hn⟩ := hr
        have hmem := List.mem_of_find?_eq_some hrow
        have hpred := List.find?_some hrow
        simp only [decide_eq_true_eq] at hpred
        have : row.tagsText = encodeTags [] := by
          have : row ∈ st.notes.map (fun n =>
            if n.id = note_id then
              (⟨n.id, content, encodeTags ((none : Option (List (List Char))).getD []),
                n.created_at, now⟩ : NoteRow)
            else n) := hmem
          simp only [List.mem_map] at this
          obtain ⟨n0, -, hn0⟩ := this
          by_cases hc : n0.id = note_id
          · simp [hc] at hn0
            rw [← hn0]
          · simp [hc] at hn0
            rw [← hn0] at hpred
            exact absurd hpred hc
        rw [this, decode_encode] at hts
        obtain ⟨a, ha1, ha2⟩ := hts
        have ha1' : a = [] := (Option.some.inj ha1).symm
        rw [← Option.some.inj hn, ← ha2, ha1']

/-- C10 witness: updating a note that carried tags, with tags omitted,
returns it with the empty tag list. -/
theorem update_tags_none_empty_witness :
    update_note_db ⟨[⟨1, [], encodeTags [['a']], 0, 0⟩], [], 2, 1⟩ 1 ⟨['c'], none⟩ 6 =
      update_note_db ⟨[⟨1, [], encodeTags [['a']], 0, 0⟩], [], 2, 1⟩ 1 ⟨['c'], some []⟩ 6
    ∧ (⟨1, ['c'], [], 0, 6⟩ : Note).tags = [] :=
  ⟨(update_tags_none_empty ⟨[⟨1, [], encodeTags [['a']], 0, 0⟩], [], 2, 1⟩ 1 ['c'] 6).1,
   (update_tags_none_empty ⟨[⟨1, [], encodeTags [['a']], 0, 0⟩], [], 2, 1⟩ 1 ['c'] 6).2
        ⟨[⟨1, ['c'], encodeTags [], 0, 6⟩], [], 2, 1⟩ ⟨1, ['c'], [], 0, 6⟩ (by decide)⟩

theorem find?_map_updated (note_id : Nat) (c tj : List Char) (now : Nat) :
    ∀ (notes : List NoteRow) (old : NoteRow),
      notes.find? (fun n => n.id = note_id) = some old →
      (notes.map (fun n =>
        if n.id = note_id then (⟨n.id, c, tj, n.created_at, now⟩ : NoteRow) else n)).find?
          (fun n => n.id = note_id) = some ⟨old.id, c, tj, old.created_at, now⟩ := by
  intro notes
  induction notes with
  | nil => intro old h; simp at h
  | cons n rest ih =>
    intro old h
    by_cases hn : n.id = note_id
    · rw [List.find?_cons_of_pos _ (by simp [hn])] at h
      have hon : old = n := (Option.some.inj h).symm
      subst hon
      rw [List.map_cons, if_pos hn, List.find?_cons_of_pos _ (by simp [hn])]
    · rw [List.find?_cons_of_neg _ (by simp [hn])] at h
      rw [List.map_cons, if_neg hn, List.find?_cons_of_neg _ (by simp [hn])]
      exact ih old h

/-- C7: for an existing id, `update_note_db` fully replaces content and tags,
sets `updated_at` to the current time, and leaves the id and `created_at`
unchanged (and does not touch the relation table); for an absent id it
returns `Ok(None)` — the NotFound signal, not an error — and the store is
unchanged. -/
theorem update_full_replace (st : Store) (note_id : Nat) (p : UpdateNotePayload) (now : Nat) :
    (∀ old, st.notes.find? (fun n => n.id = note_id) = some old →
      ∃ st' n', update_note_db st note_id p now = some (st', some n') ∧
        n'.id = note_id ∧ n'.content = p.content ∧ n'.tags = p.tags.getD [] ∧
        n'.updated_at = now ∧ n'.created_at = old.created_at ∧
        st'.relations = st.relations)
    ∧ (st.notes.find? (fun n => n.id = note_id) = none →
      update_note_db st note_id p now = some (st, none)) := by
  constructor
  · intro old h
    have hmem := List.mem_of_find?_eq_some h
    have hpred : old.id = note_id := by simpa using List.find?_some h
    have haff : ¬ (st.notes.filter (fun n => n.id = note_id)).length = 0 := by
      have hm : old ∈ st.notes.filter (fun n => n.id = note_id) :=
        List.mem_filter.mpr ⟨hmem, by simp [hpred]⟩
      have := List.ne_nil_of_mem hm
      simpa [List.length_eq_zero] using this
    have hfind := find?_map_updated note_id p.content (encodeTags (p.tags.getD [])) now
      st.notes old h
    refine ⟨⟨st.notes.map (fun n =>
        if n.id = note_id then
          (⟨n.id, p.content, encodeTags (p.tags.getD []), n.created_at, now⟩ : NoteRow)
        else n), st.relations, st.nextNoteId, st.nextRelId⟩,
      ⟨old.id, p.content, p.tags.getD [], old.created_at, now⟩, ?_, hpred, rfl, rfl, rfl, rfl, rfl⟩
    simp only [update_note_db, if_neg haff, get_note_db, hfind, map_row_to_note, decode_encode]
    rfl
  · intro h
    have hall : ∀ n ∈ st.notes, ¬ n.id = note_id := by
      intro n hn
      have := List.find?_eq_none.mp h n hn
      simpa using this
    have haff : (st.notes.filter (fun n => n.id = note_id)).length = 0 := by
      rw [List.length_eq_zero, List.filter_eq_nil]
      intro n hn
      simp [hall n hn]
    have hmap : st.notes.map (fun n =>
        if n.id = note_id then
          (⟨n.id, p.content, encodeTags (p.tags.getD []), n.created_at, now⟩ : NoteRow)
        else n) = st.notes := by
      have : ∀ n ∈ st.notes, (if n.id = note_id then
          (⟨n.id, p.content, encodeTags (p.tags.getD []), n.created_at, now⟩ : NoteRow)
        else n) = n := by
        intro n hn
        rw [if_neg (hall n hn)]
      calc st.notes.map _ = st.notes.map id := List.map_congr_left this
        _ = st.notes := List.map_id st.notes
    simp only [update_note_db, if_pos haff, hmap]

/-- C7 witness: updating note 1 in a one-note store replaces its content and
tags and keeps `created_at`; updating the absent id 9 returns None with the
store untouched. -/
theorem update_full_replace_witness :
    (∃ st' n', update_note_db ⟨[⟨1, ['o'], encodeTags [['a']], 3, 3⟩], [], 2, 1⟩ 1
        ⟨['c'], some [['b']]⟩ 8 = some (st', some n') ∧
      n'.id = 1 ∧ n'.content = ['c'] ∧
      n'.tags = (some [['b']] : Option (List (List Char))).getD [] ∧
      n'.updated_at = 8 ∧ n'.created_at = (⟨1, ['o'], encodeTags [['a']], 3, 3⟩ : NoteRow).created_at ∧
      st'.relations = [])
    ∧ update_note_db ⟨[⟨1, ['o'], encodeTags [['a']], 3, 3⟩], [], 2, 1⟩ 9 ⟨['c'], none⟩ 8 =
        some (⟨[⟨1, ['o'], encodeTags [['a']], 3, 3⟩], [], 2, 1⟩, none) :=
  ⟨(update_full_replace ⟨[⟨1, ['o'], encodeTags [['a']], 3, 3⟩], [], 2, 1⟩ 1
      ⟨['c'], some [['b']]⟩ 8).1 ⟨1, ['o'], encodeTags [['a']], 3, 3⟩ (by decide),
   (update_full_replace ⟨[⟨1, ['o'], encodeTags [['a']], 3, 3⟩], [], 2, 1⟩ 9
      ⟨['c'], none⟩ 8).2 (by decide)⟩

theorem delete_noop (st : Store) (note_id : Nat) (h : ∀ n ∈ st.notes, ¬ n.id = note_id) :
    delete_note_db st note_id = (st, false) := by
  have hdel : st.notes.filter (fun n => n.id = note_id) = [] := by
    rw [List.filter_eq_nil]
    intro n hn
    simp [h n hn]
  have hkeep : st.notes.filter (fun n => ¬ n.id = note_id) = st.notes := by
    rw [List.filter_eq_self]
    intro n hn
    simp [h n hn]
  simp only [delete_note_db, hdel, hkeep]
  simp

/-- C8: after a delete of an id, `get_note_db` on that id yields the NotFound
signal (`Ok(None)`) and a second delete returns `false` rather than an
error; deleting an id that never existed also returns `false` with the store
untouched. -/
theorem delete_idempotent (st : Store) (note_id : Nat) :
    get_note_db (delete_note_db st note_id).1 note_id = some none
    ∧ delete_note_db (delete_note_db st note_id).1 note_id =
        ((delete_note_db st note_id).1, false)
    ∧ ((∀ n ∈ st.notes, ¬ n.id = note_id) → delete_note_db st note_id = (st, false)) := by
  have hgone : ∀ n ∈ (delete_note_db st note_id).1.notes, ¬ n.id = note_id := by
    intro n hn
    simp only [delete_note_db] at hn
    have := (List.mem_filter.mp hn).2
    simpa using this
  refine ⟨?_, ?_, fun h => delete_noop st note_id h⟩
  · have hfind : (delete_note_db st note_id).1.notes.find? (fun n => n.id = note_id) = none := by
      rw [List.find?_eq_none]
      intro n hn
      simp [hgone n hn]
    simp [get_note_db, hfind]
  · exact delete_noop _ note_id hgone

/-- C8 witness: deleting note 1 from a one-note store makes `get` yield
None, a second delete return false, and deleting the never-existing id 99
returns false on the untouched store. -/
theorem delete_idempotent_witness :
    get_note_db (delete_note_db ⟨[⟨1, [], encodeTags [], 0, 0⟩], [], 2, 1⟩ 1).1 1 = some none
    ∧ delete_note_db (delete_note_db ⟨[⟨1, [], encodeTags [], 0, 0⟩], [], 2, 1⟩ 1).1 1 =
        ((delete_note_db ⟨[⟨1, [], encodeTags [], 0, 0⟩], [], 2, 1⟩ 1).1, false)
    ∧ delete_note_db ⟨[⟨1, [], encodeTags [], 0, 0⟩], [], 2, 1⟩ 99 =
        (⟨[⟨1, [], encodeTags [], 0, 0⟩], [], 2, 1⟩, false) :=
  ⟨(delete_idempotent ⟨[⟨1, [], encodeTags [], 0, 0⟩], [], 2, 1⟩ 1).1,
   (delete_idempotent ⟨[⟨1, [], encodeTags [], 0, 0⟩], [], 2, 1⟩ 1).2.1,
   (delete_idempotent ⟨[⟨1, [], encodeTags [], 0, 0⟩], [], 2, 1⟩ 99).2.2 (by decide)⟩

/-- referential integrity of the relation table: both endpoints of every
relation row are ids of stored notes. -/
def relOk (st : Store) : Prop :=
  ∀ r ∈ st.relations,
    (∃ n ∈ st.notes, n.id = r.source_note_id) ∧ (∃ n ∈ st.notes, n.id = r.target_note_id)

theorem delete_survivor (st : Store) (note_id : Nat) (r : RelationRow)
    (hr : r ∈ (delete_note_db st note_id).1.relations) :
    r ∈ st.relations
    ∧ ¬ (st.notes.filter (fun n => n.id = note_id)).any
        (fun n => n.id = r.source_note_id) = true
    ∧ ¬ (st.notes.filter (fun n => n.id = note_id)).any
        (fun n => n.id = r.target_note_id) = true := by
  simp only [delete_note_db] at hr
  have h1 := (List.mem_filter.mp hr).1
  have h2 := of_decide_eq_true (List.mem_filter.mp hr).2
  rw [not_or] at h2
  exact ⟨h1, h2.1, h2.2⟩

theorem relOk_reachable {st : Store} (h : Reachable st) : relOk st := by
  induction h with
  | empty => intro r hr; simp at hr
  | create h hc ih =>
    rename_i st st' p now n
    simp only [create_note_db] at hc
    obtain ⟨parsed, -, hpair⟩ := Option.map_eq_some'.mp hc
    have hst' : st' = ⟨st.notes ++ [⟨st.nextNoteId, p.content,
        encodeTags (p.tags.getD []), p.created_at.getD now, p.created_at.getD now⟩],
        st.relations, st.nextNoteId + 1, st.nextRelId⟩ :=
      (congrArg Prod.fst hpair).symm
    subst hst'
    intro r hr
    obtain ⟨⟨n1, hn1, hid1⟩, ⟨n2, hn2, hid2⟩⟩ := ih r hr
    exact ⟨⟨n1, List.mem_append_left _ hn1, hid1⟩, ⟨n2, List.mem_append_left _ hn2, hid2⟩⟩
  | update h hu ih =>
    rename_i st st' note_id p now res
    have hst' : st' = ⟨st.notes.map (fun n =>
        if n.id = note_id then
          (⟨n.id, p.content, encodeTags (p.tags.getD []), n.created_at, now⟩ : NoteRow)
        else n), st.relations, st.nextNoteId, st.nextRelId⟩ := by
      simp only [update_note_db] at hu
      split at hu
      · exact (congrArg Prod.fst (Option.some.inj hu)).symm
      · obtain ⟨res0, -, hpair⟩ := Option.map_eq_some'.mp hu
        exact (congrArg Prod.fst hpair).symm
    subst hst'
    intro r hr
    obtain ⟨⟨n1, hn1, hid1⟩, ⟨n2, hn2, hid2⟩⟩ := ih r hr
    refine ⟨⟨if n1.id = note_id then
        (⟨n1.id, p.content, encodeTags (p.tags.getD []), n1.created_at, now⟩ : NoteRow)
      else n1, List.mem_map_of_mem _ hn1, ?_⟩,
      ⟨if n2.id = note_id then
        (⟨n2.id, p.content, encodeTags (p.tags.getD []), n2.created_at, now⟩ : NoteRow)
      else n2, List.mem_map_of_mem _ hn2, ?_⟩⟩
    · split <;> simpa [hid1]
    · split <;> simpa [hid2]
  | del h ih =>
    rename_i st note_id
    intro r hr
    obtain ⟨hmem, hq1, hq2⟩ := delete_survivor st note_id r hr
    obtain ⟨⟨n1, hn1, hid1⟩, ⟨n2, hn2, hid2⟩⟩ := ih r hmem
    have hn1' : ¬ n1.id = note_id := by
      intro hcontra
      exact hq1 (List.any_eq_true.mpr
        ⟨n1, List.mem_filter.mpr ⟨hn1, by simp [hcontra]⟩, by simp [hid1]⟩)
    have hn2' : ¬ n2.id = note_id := by
      intro hcontra
      exact hq2 (List.any_eq_true.mpr
        ⟨n2, List.mem_filter.mpr ⟨hn2, by simp [hcontra]⟩, by simp [hid2]⟩)
    simp only [delete_note_db]
    exact ⟨⟨n1, List.mem_filter.mpr ⟨hn1, by simp [hn1']⟩, hid1⟩,
           ⟨n2, List.mem_filter.mpr ⟨hn2, by simp [hn2']⟩, hid2⟩⟩
  | rel h ih =>
    rename_i st src tgt p now
    simp only [create_note_relation_db]
    split
    · exact ih
    · rename_i hcond
      push_neg at hcond
      obtain ⟨hsrc, htgt⟩ := hcond
      simp only [List.any_eq_true, decide_eq_true_eq] at hsrc htgt
      intro r hr
      rcases List.mem_append.mp hr with hold | hnew
      · exact ih r hold
      · have hrow : r = ⟨st.nextRelId, src, tgt, encodeRelType p.relation_type, now⟩ := by
          simpa using hnew
        subst hrow
        exact ⟨hsrc, htgt⟩
  | comment h ih =>
    rename_i st tgt p now ef
    simp only [add_comment_db]
    split
    · exact ih
    · rename_i htgt
      push_neg at htgt
      simp only [List.any_eq_true, decide_eq_true_eq] at htgt
      split
      · exact ih
      · intro r hr
        rcases List.mem_append.mp hr with hold | hnew
        · obtain ⟨⟨n1, hn1, hid1⟩, ⟨n2, hn2, hid2⟩⟩ := ih r hold
          exact ⟨⟨n1, List.mem_append_left _ hn1, hid1⟩,
                 ⟨n2, List.mem_append_left _ hn2, hid2⟩⟩
        · have hrow : r = ⟨st.nextRelId, st.nextNoteId, tgt, commentStr, now⟩ := by
            simpa using hnew
          subst hrow
          refine ⟨⟨⟨st.nextNoteId, p.content, encodeTags (p.tags.getD []), now, now⟩,
            List.mem_append_right _ (by simp), rfl⟩, ?_⟩
          obtain ⟨n2, hn2, hid2⟩ := htgt
          exact ⟨n2, List.mem_append_left _ hn2, hid2⟩

/-- C5: in every reachable store state every relation's endpoints reference
existing notes (a relation never outlives either endpoint), and
`delete_note_db` removes, in the same operation, every relation naming the
deleted note as source or target: none survives in the resulting state. -/
theorem relations_never_dangle (st : Store) (h : Reachable st) :
    relOk st
    ∧ ∀ note_id, ∀ r ∈ (delete_note_db st note_id).1.relations,
        ¬ r.source_note_id = note_id ∧ ¬ r.target_note_id = note_id := by
  have hok := relOk_reachable h
  refine ⟨hok, ?_⟩
  intro note_id r hr
  obtain ⟨hmem, hq1, hq2⟩ := delete_survivor st note_id r hr
  obtain ⟨⟨n1, hn1, hid1⟩, ⟨n2, hn2, hid2⟩⟩ := hok r hmem
  constructor
  · intro hcontra
    exact hq1 (List.any_eq_true.mpr
      ⟨n1, List.mem_filter.mpr ⟨hn1, by simp [hid1, hcontra]⟩, by simp [hid1]⟩)
  · intro hcontra
    exact hq2 (List.any_eq_true.mpr
      ⟨n2, List.mem_filter.mpr ⟨hn2, by simp [hid2, hcontra]⟩, by simp [hid2]⟩)

/-- C5 witness: the invariant and the cascade property instantiated at the
reachable one-note store obtained by one create from the empty store. -/
theorem relations_never_dangle_witness :
    relOk ⟨[⟨1, ['a'], encodeTags [], 5, 5⟩], [], 2, 1⟩
    ∧ ∀ note_id, ∀ r ∈ (delete_note_db ⟨[⟨1, ['a'], encodeTags [], 5, 5⟩], [], 2, 1⟩
        note_id).1.relations,
        ¬ r.source_note_id = note_id ∧ ¬ r.target_note_id = note_id :=
  relations_never_dangle ⟨[⟨1, ['a'], encodeTags [], 5, 5⟩], [], 2, 1⟩
    (Reachable.create Reachable.empty
      (show create_note_db ⟨[], [], 1, 1⟩ ⟨['a'], none, none⟩ 5 =
        some (⟨[⟨1, ['a'], encodeTags [], 5, 5⟩], [], 2, 1⟩, ⟨1, ['a'], [], 5, 5⟩) by decide))

section DetailedTags

/-- option-valued maximum combination (SQL `MAX` over a split group). -/
def maxOptO : Option Nat → Option Nat → Option Nat
  | none, b => b
  | some a, none => some a
  | some a, some b => some (max a b)

theorem listMaxO_cons (a : Nat) (l : List Nat) :
    listMaxO (a :: l) = maxOptO (some a) (listMaxO l) := by
  cases h : listMaxO l <;> simp [listMaxO, h, maxOptO]

theorem listMaxO_append (l1 l2 : List Nat) :
    listMaxO (l1 ++ l2) = maxOptO (listMaxO l1) (listMaxO l2) := by
  induction l1 with
  | nil => rfl
  | cons a t ih =>
    rw [List.cons_append, listMaxO_cons, ih, listMaxO_cons]
    cases h1 : listMaxO t <;> cases h2 : listMaxO l2 <;>
      simp [maxOptO, Nat.max_assoc]

theorem listMaxO_replicate (k : Nat) (u : Nat) (hk : k ≠ 0) :
    listMaxO (List.replicate k u) = some u := by
  induction k with
  | zero => exact absurd rfl hk
  | succ m ih =>
    cases m with
    | zero => simp [listMaxO]
    | succ m' =>
      rw [List.replicate_succ, listMaxO_cons, ih (by simp)]
      simp [maxOptO]

theorem tagOccs_append (l1 l2 : List NoteRow) :
    tagOccs (l1 ++ l2) = tagOccs l1 ++ tagOccs l2 := by
  simp [tagOccs]

theorem filter_pairs_length (l : List (List Char)) (u : Nat) (t : List Char) :
    (((l.map (fun a => (a, u))).filter (fun o => o.1 = t)).length) =
      ((l.filter (fun a => a = t)).length) := by
  induction l with
  | nil => rfl
  | cons a rest ih =>
    by_cases ha : a = t <;> simp [ha, ih]

theorem filter_pairs_snd (l : List (List Char)) (u : Nat) (t : List Char) :
    (((l.map (fun a => (a, u))).filter (fun o => o.1 = t)).map (fun o => o.2)) =
      List.replicate ((l.filter (fun a => a = t)).length) u := by
  induction l with
  | nil => rfl
  | cons a rest ih =>
    by_cases ha : a = t <;> simp [ha, ih, List.replicate_succ]

theorem filterEq_length_pos_iff (l : List (List Char)) (t : List Char) :
    0 < (l.filter (fun a => a = t)).length ↔ t ∈ l := by
  induction l with
  | nil => simp
  | cons a rest ih =>
    by_cases ha : a = t
    · subst ha
      simp
    · simp [ha, ih, Ne.symm ha]

theorem occCount_eq_sum (t : List Char) : ∀ notes : List NoteRow,
    occCount notes t =
      (notes.map (fun n => ((rowTags n).filter (fun a => a = t)).length)).sum := by
  intro notes
  induction notes with
  | nil => rfl
  | cons n rest ih =>
    have hsplit : tagOccs (n :: rest) =
        (rowTags n).map (fun a => (a, n.updated_at)) ++ tagOccs rest := by
      simp [tagOccs]
    simp only [occCount] at ih ⊢
    rw [hsplit, List.filter_append, List.length_append, filter_pairs_length, ih]
    simp

theorem occLastModified_eq_notes (t : List Char) : ∀ notes : List NoteRow,
    occLastModified notes t =
      listMaxO ((notes.filter (fun n => t ∈ rowTags n)).map (fun n => n.updated_at)) := by
  intro notes
  induction notes with
  | nil => rfl
  | cons n rest ih =>
    have hsplit : tagOccs (n :: rest) =
        (rowTags n).map (fun a => (a, n.updated_at)) ++ tagOccs rest := by
      simp [tagOccs]
    simp only [occLastModified] at ih ⊢
    rw [hsplit, List.filter_append, List.map_append, listMaxO_append, filter_pairs_snd]
    by_cases hmem : t ∈ rowTags n
    · have hk := Nat.pos_iff_ne_zero.mp ((filterEq_length_pos_iff (rowTags n) t).mpr hmem)
      rw [listMaxO_replicate _ _ hk]
      rw [List.filter_cons_of_pos (by simp [hmem]), List.map_cons, listMaxO_cons, ih]
    · have hk := Nat.eq_zero_of_not_pos
        (fun hpos => hmem ((filterEq_length_pos_iff (rowTags n) t).mp hpos))
      rw [hk, List.replicate_zero, List.filter_cons_of_neg (by simp [hmem]), ih]
      rfl

theorem mem_names_iff (st : Store) (t : List Char) :
    t ∈ ((tagOccs st.notes).map (fun o => o.1)).dedup ↔ ∃ n ∈ st.notes, t ∈ rowTags n := by
  rw [List.mem_dedup, List.mem_map]
  constructor
  · rintro ⟨o, hmem, hfst⟩
    simp only [tagOccs, List.mem_flatMap, List.mem_map] at hmem
    obtain ⟨n, hn, a0, ha0, heq⟩ := hmem
    refine ⟨n, hn, ?_⟩
    have ho1 : o.1 = a0 := by rw [← heq]
    rw [← hfst, ho1]
    exact ha0
  · rintro ⟨n, hn, ht⟩
    refine ⟨(t, n.updated_at), ?_, rfl⟩
    simp only [tagOccs, List.mem_flatMap, List.mem_map]
    exact ⟨n, hn, t, ht, rfl⟩

theorem mem_detailed_tags (st : Store) (e : DetailedTag) :
    e ∈ get_detailed_tags_db st ↔
      ∃ t ∈ ((tagOccs st.notes).map (fun o => o.1)).dedup,
        e = ⟨t, occCount st.notes t, occLastModified st.notes t⟩ := by
  show e ∈ sortB _ _ ↔ _
  rw [mem_sortB]
  simp only [List.mem_map]
  constructor
  · rintro ⟨t, ht, rfl⟩
    exact ⟨t, ht, rfl⟩
  · rintro ⟨t, ht, rfl⟩
    exact ⟨t, ht, rfl⟩

/-- C1 (amended): `get_detailed_tags_db` yields one entry per distinct tag
value occurring in any note's tag list; each entry's `count` is the total
number of occurrences of that tag across all notes' tag lists (a note
carrying the same tag twice counts twice — `json_each` enumerates array
elements, not distinct notes); `last_modified` is the most recent
`updated_at` among the notes carrying the tag; entries are ordered by count
descending; and a note with an empty tag list contributes to no entry. -/
theorem detailed_tags_spec (st : Store) :
    ((get_detailed_tags_db st).map (fun e => e.name)).Nodup
    ∧ (∀ t, (∃ e ∈ get_detailed_tags_db st, e.name = t) ↔ ∃ n ∈ st.notes, t ∈ rowTags n)
    ∧ (∀ e ∈ get_detailed_tags_db st,
        e.count = (st.notes.map (fun n => ((rowTags n).filter (fun a => a = e.name)).length)).sum)
    ∧ (∀ e ∈ get_detailed_tags_db st,
        e.last_modified =
          listMaxO ((st.notes.filter (fun n => e.name ∈ rowTags n)).map (fun n => n.updated_at)))
    ∧ (get_detailed_tags_db st).Pairwise (fun a b => b.count ≤ a.count)
    ∧ (∀ n, rowTags n = [] →
        get_detailed_tags_db ⟨st.notes ++ [n], st.relations, st.nextNoteId, st.nextRelId⟩ =
          get_detailed_tags_db st) := by
  refine ⟨?_, ?_, ?_, ?_, ?_, ?_⟩
  · have hperm : (get_detailed_tags_db st).Perm
        ((((tagOccs st.notes).map (fun o => o.1)).dedup).map
          (fun t => (⟨t, occCount st.notes t, occLastModified st.notes t⟩ : DetailedTag))) :=
      perm_sortB _ _
    have hperm2 := hperm.map (fun e => e.name)
    rw [(hperm2.nodup_iff)]
    rw [List.map_map]
    have : ((fun e : DetailedTag => e.name) ∘
        (fun t => (⟨t, occCount st.notes t, occLastModified st.notes t⟩ : DetailedTag))) =
        fun t => t := rfl
    rw [this]
    simpa using (List.nodup_dedup ((tagOccs st.notes).map (fun o => o.1)))
  · intro t
    rw [← mem_names_iff st t]
    constructor
    · rintro ⟨e, he, rfl⟩
      obtain ⟨t0, ht0, rfl⟩ := (mem_detailed_tags st e).mp he
      exact ht0
    · intro ht
      exact ⟨⟨t, occCount st.notes t, occLastModified st.notes t⟩,
        (mem_detailed_tags st _).mpr ⟨t, ht, rfl⟩, rfl⟩
  · intro e he
    obtain ⟨t, -, rfl⟩ := (mem_detailed_tags st e).mp he
    exact occCount_eq_sum t st.notes
  · intro e he
    obtain ⟨t, -, rfl⟩ := (mem_detailed_tags st e).mp he
    exact occLastModified_eq_notes t st.notes
  · have hpw := pairwise_sortB (fun a b : DetailedTag => b.count ≤ a.count)
      (by intro a b h; simp at h ⊢; omega)
      (by intro a b c h1 h2; simp at h1 h2 ⊢; omega)
      ((((tagOccs st.notes).map (fun o => o.1)).dedup).map
        (fun t => (⟨t, occCount st.notes t, occLastModified st.notes t⟩ : DetailedTag)))
    exact hpw.imp (by intro a b h; simpa using h)
  · intro n hn
    have hocc : tagOccs (st.notes ++ [n]) = tagOccs st.notes := by
      rw [tagOccs_append]
      simp [tagOccs, hn]
    simp only [get_detailed_tags_db, occCount, occLastModified, hocc]

/-- C1 witness: the amended statement instantiated at a two-note store
(note 1 tagged x and y, note 2 tagged y), checking the count and
last-modified facts concretely. -/
theorem detailed_tags_spec_witness :
    ((get_detailed_tags_db ⟨[⟨1, [], encodeTags [['x'], ['y']], 0, 3⟩,
        ⟨2, [], encodeTags [['y']], 0, 7⟩], [], 3, 1⟩).map (fun e => e.name)).Nodup
    ∧ (∃ n ∈ (⟨[⟨1, [], encodeTags [['x'], ['y']], 0, 3⟩,
        ⟨2, [], encodeTags [['y']], 0, 7⟩], [], 3, 1⟩ : Store).notes, ['y'] ∈ rowTags n) :=
  ⟨(detailed_tags_spec ⟨[⟨1, [], encodeTags [['x'], ['y']], 0, 3⟩,
      ⟨2, [], encodeTags [['y']], 0, 7⟩], [], 3, 1⟩).1,
   ((detailed_tags_spec ⟨[⟨1, [], encodeTags [['x'], ['y']], 0, 3⟩,
      ⟨2, [], encodeTags [['y']], 0, 7⟩], [], 3, 1⟩).2.1 ['y']).mp (by decide)⟩

/-- C1 counterexample: a note whose tag list carries `x` twice produces a
`detailedTags` entry with count 2, although only one note carries `x` — the
claim's "a note carrying the same tag twice counts once" is false for the
code. -/
theorem detailed_tags_count_counterexample :
    (get_detailed_tags_db ⟨[⟨1, [], encodeTags [['x'], ['x']], 0, 5⟩], [], 2, 1⟩).map
        (fun e => (e.name, e.count)) = [(['x'], 2)]
    ∧ ((⟨[⟨1, [], encodeTags [['x'], ['x']], 0, 5⟩], [], 2, 1⟩ : Store).notes.filter
        (fun n => ['x'] ∈ rowTags n)).length = 1 := by
  constructor
  · decide
  · decide

end DetailedTags

section TagFilter

/-- characters of a tag-filter string for which the LIKE-based filter is an
exact (up to ASCII case) element match: plain (no JSON escaping), no LIKE
wildcard, and not the JSON array separator. -/
def filterSafeChar (c : Char) : Bool :=
  plainChar c && c ≠ '%' && c ≠ '_' && c ≠ ','

/-- a filter string all of whose characters are safe. -/
def filterSafe (t : List Char) : Bool := t.all filterSafeChar

theorem foldChar_quote : foldChar '\"' = '\"' := by decide

theorem foldChar_mem (c : Char) :
    foldChar c = c ∨ foldChar c ∈ ['a','b','c','d','e','f','g','h','i','j','k','l','m','n','o','p','q','r','s','t','u','v','w','x','y','z'] := by
  unfold foldChar
  by_cases h1 : c = 'A'
  · right; rw [if_pos h1]; decide
  rw [if_neg h1]
  by_cases h2 : c = 'B'
  · right; rw [if_pos h2]; decide
  rw [if_neg h2]
  by_cases h3 : c = 'C'
  · right; rw [if_pos h3]; decide
  rw [if_neg h3]
  by_cases h4 : c = 'D'
  · right; rw [if_pos h4]; decide
  rw [if_neg h4]
  by_cases h5 : c = 'E'
  · right; rw [if_pos h5]; decide
  rw [if_neg h5]
  by_cases h6 : c = 'F'
  · right; rw [if_pos h6]; decide
  rw [if_neg h6]
  by_cases h7 : c = 'G'
  · right; rw [if_pos h7]; decide
  rw [if_neg h7]
  by_cases h8 : c = 'H'
  · right; rw [if_pos h8]; decide
  rw [if_neg h8]
  by_cases h9 : c = 'I'
  · right; rw [if_pos h9]; decide
  rw [if_neg h9]
  by_cases h10 : c = 'J'
  · right; rw [if_pos h10]; decide
  rw [if_neg h10]
  by_cases h11 : c = 'K'
  · right; rw [if_pos h11]; decide
  rw [if_neg h11]
  by_cases h12 : c = 'L'
  · right; rw [if_pos h12]; decide
  rw [if_neg h12]
  by_cases h13 : c = 'M'
  · right; rw [if_pos h13]; decide
  rw [if_neg h13]
  by_cases h14 : c = 'N'
  · right; rw [if_pos h14]; decide
  rw [if_neg h14]
  by_cases h15 : c = 'O'
  · right; rw [if_pos h15]; decide
  rw [if_neg h15]
  by_cases h16 : c = 'P'
  · right; rw [if_pos h16]; decide
  rw [if_neg h16]
  by_cases h17 : c = 'Q'
  · right; rw [if_pos h17]; decide
  rw [if_neg h17]
  by_cases h18 : c = 'R'
  · right; rw [if_pos h18]; decide
  rw [if_neg h18]
  by_cases h19 : c = 'S'
  · right; rw [if_pos h19]; decide
  rw [if_neg h19]
  by_cases h20 : c = 'T'
  · right; rw [if_pos h20]; decide
  rw [if_neg h20]
  by_cases h21 : c = 'U'
  · right; rw [if_pos h21]; decide
  rw [if_neg h21]
  by_cases h22 : c = 'V'
  · right; rw [if_pos h22]; decide
  rw [if_neg h22]
  by_cases h23 : c = 'W'
  · right; rw [if_pos h23]; decide
  rw [if_neg h23]
  by_cases h24 : c = 'X'
  · right; rw [if_pos h24]; decide
  rw [if_neg h24]
  by_cases h25 : c = 'Y'
  · right; rw [if_pos h25]; decide
  rw [if_neg h25]
  by_cases h26 : c = 'Z'
  · right; rw [if_pos h26]; decide
  rw [if_neg h26]
  left; rfl

theorem plainChar_foldChar {c : Char} (h : plainChar c = true) :
    plainChar (foldChar c) = true := by
  rcases foldChar_mem c with heq | hmem
  · rw [heq]; exact h
  · exact (by decide : ∀ d ∈ ['a','b','c','d','e','f','g','h','i','j','k','l','m','n','o','p','q','r','s','t','u','v','w','x','y','z'], plainChar d = true) _ hmem

theorem filterSafeChar_foldChar {c : Char} (h : filterSafeChar c = true) :
    filterSafeChar (foldChar c) = true := by
  rcases foldChar_mem c with heq | hmem
  · rw [heq]; exact h
  · exact (by decide : ∀ d ∈ ['a','b','c','d','e','f','g','h','i','j','k','l','m','n','o','p','q','r','s','t','u','v','w','x','y','z'], filterSafeChar d = true) _ hmem

theorem likeMatch_nil (s : List Char) : likeMatch [] s = s.isEmpty := by
  rw [likeMatch.eq_def]

theorem likeMatch_percent (p : List Char) (s : List Char) :
    likeMatch ('%' :: p) s = s.tails.any (fun s' => likeMatch p s') := by
  rw [likeMatch.eq_def]
  simp

theorem likeMatch_cons_nil (c : Char) (p : List Char) (hc : ¬ c = '%') :
    likeMatch (c :: p) [] = false := by
  rw [likeMatch.eq_def]
  simp [hc]

theorem likeMatch_cons_cons (c : Char) (p : List Char) (d : Char) (s' : List Char)
    (hc : ¬ c = '%') :
    likeMatch (c :: p) (d :: s') = ((c = '_' || foldChar c = foldChar d) && likeMatch p s') := by
  rw [likeMatch.eq_def]
  simp [hc]

theorem likeMatch_lit_percent : ∀ q : List Char,
    q.all (fun c => ¬ c = '%' && ¬ c = '_') = true →
    ∀ s, (likeMatch (q ++ ['%']) s = true ↔ (q.map foldChar) <+: (s.map foldChar)) := by
  intro q
  induction q with
  | nil =>
    intro _ s
    rw [List.nil_append]
    constructor
    · intro _
      exact List.nil_prefix
    · intro _
      rw [likeMatch_percent, List.any_eq_true]
      refine ⟨[], (List.mem_tails _ _).mpr List.nil_suffix, ?_⟩
      rw [likeMatch_nil]
      rfl
  | cons c q' ih =>
    intro hq s
    rw [List.all_cons, Bool.and_eq_true, Bool.and_eq_true] at hq
    obtain ⟨⟨hc, hcu⟩, hall⟩ := hq
    rw [decide_eq_true_eq] at hc hcu
    cases s with
    | nil =>
      rw [List.cons_append, likeMatch_cons_nil c _ hc]
      simp
    | cons d s' =>
      rw [List.cons_append, likeMatch_cons_cons c _ d s' hc]
      simp only [List.map_cons, List.cons_prefix_cons]
      rw [Bool.and_eq_true, ih hall s']
      constructor
      · rintro ⟨h1, h2⟩
        rw [Bool.or_eq_true] at h1
        rcases h1 with h1 | h1
        · exact absurd (by simpa using h1) hcu
        · exact ⟨by simpa using h1, h2⟩
      · rintro ⟨h1, h2⟩
        exact ⟨by simp [h1], h2⟩

theorem likeMatch_percent_iff (p s : List Char) :
    likeMatch ('%' :: p) s = true ↔ ∃ s', s' <:+ s ∧ likeMatch p s' = true := by
  rw [likeMatch_percent, List.any_eq_true]
  constructor
  · rintro ⟨s', hs', h⟩
    exact ⟨s', (List.mem_tails _ _).mp hs', h⟩
  · rintro ⟨s', hs', h⟩
    exact ⟨s', (List.mem_tails _ _).mpr hs', h⟩

theorem likeMatch_tagPattern_iff (t s : List Char)
    (ht : t.all (fun c => ¬ c = '%' && ¬ c = '_') = true) :
    likeMatch (tagPattern t) s = true ↔
      ('\"' :: t.map foldChar ++ ['\"']) <:+: (s.map foldChar) := by
  have hshape : tagPattern t = '%' :: (('\"' :: t ++ ['\"']) ++ ['%']) := by
    simp [tagPattern]
  have hq : ('\"' :: t ++ ['\"']).all (fun c => ¬ c = '%' && ¬ c = '_') = true := by
    simp only [List.all_cons, List.all_append, Bool.and_eq_true]
    exact ⟨⟨⟨by decide, by decide⟩, ht⟩, ⟨by decide, by decide⟩, by decide⟩
  have hfold : (('\"' :: t ++ ['\"']).map foldChar) = '\"' :: t.map foldChar ++ ['\"'] := by
    simp [foldChar_quote]
  rw [hshape, likeMatch_percent_iff]
  constructor
  · rintro ⟨s', hsuf, hlit⟩
    have hpref := (likeMatch_lit_percent _ hq s').mp hlit
    rw [hfold] at hpref
    obtain ⟨w, hw⟩ := hpref
    obtain ⟨v, hv⟩ := hsuf
    refine ⟨v.map foldChar, w, ?_⟩
    have hvs : v.map foldChar ++ s'.map foldChar = s.map foldChar := by
      rw [← List.map_append, hv]
    rw [← hvs, ← hw]
    simp [List.append_assoc]
  · rintro ⟨u, v, huv⟩
    have huv' : u ++ (('\"' :: t.map foldChar ++ ['\"']) ++ v) = s.map foldChar := by
      rw [← List.append_assoc]
      exact huv
    refine ⟨s.drop u.length, List.drop_suffix _ _, ?_⟩
    apply (likeMatch_lit_percent _ hq _).mpr
    rw [hfold, List.map_drop]
    exact ⟨v, by rw [← huv', List.drop_left]⟩

end TagFilter

section TagFilterEncoding

theorem foldChar_comma : foldChar ',' = ',' := by decide

theorem eq_of_quotefree : ∀ (a t u v : List Char), (∀ c ∈ a, ¬ c = '\"') →
    (∀ c ∈ t, ¬ c = '\"') → a ++ '\"' :: u = t ++ '\"' :: v → a = t ∧ u = v := by
  intro a
  induction a with
  | nil =>
    intro t u v _ htq heq
    cases t with
    | nil => simpa using heq
    | cons c t' =>
      simp only [List.nil_append, List.cons_append, List.cons.injEq] at heq
      exact absurd heq.1.symm (htq c (List.mem_cons_self c t'))
  | cons c a' ih =>
    intro t u v haq htq heq
    cases t with
    | nil =>
      simp only [List.cons_append, List.nil_append, List.cons.injEq] at heq
      exact absurd heq.1 (haq c (List.mem_cons_self c a'))
    | cons d t' =>
      simp only [List.cons_append, List.cons.injEq] at heq
      obtain ⟨hcd, heq'⟩ := heq
      obtain ⟨h1, h2⟩ := ih t' u v (fun x hx => haq x (List.mem_cons_of_mem c hx))
        (fun x hx => htq x (List.mem_cons_of_mem d hx)) heq'
      exact ⟨by rw [hcd, h1], h2⟩

theorem quote_skip : ∀ (a : List Char) (ys w : List Char), (∀ c ∈ a, ¬ c = '\"') →
    ('\"' :: w) <:+: (a ++ ys) → ('\"' :: w) <:+: ys := by
  intro a
  induction a with
  | nil => intro ys w _ h; simpa using h
  | cons c a' ih =>
    intro ys w hq h
    rw [List.cons_append] at h
    rcases List.infix_cons_iff.mp h with hp | hi
    · obtain ⟨r, hr⟩ := hp
      simp only [List.cons_append, List.cons.injEq] at hr
      exact absurd hr.1.symm (hq c (List.mem_cons_self c a'))
    · exact ih ys w (fun x hx => hq x (List.mem_cons_of_mem c hx)) hi

theorem quoted_infix_inner (t : List Char) (htq : ∀ c ∈ t, ¬ c = '\"')
    (htc : ∀ c ∈ t, ¬ c = ',') :
    ∀ tags : List (List Char), (∀ a ∈ tags, plainTag a = true) →
      (('\"' :: t ++ ['\"']) <:+: (encodeInner tags ++ [']']) ↔ t ∈ tags) := by
  intro tags
  induction tags with
  | nil =>
    intro _
    constructor
    · intro h
      exfalso
      have hlen := h.length_le
      simp [encodeInner] at hlen
    · intro h
      simp at h
  | cons a tl ih =>
    intro hptags
    have hpa : plainTag a = true := hptags a (List.mem_cons_self a tl)
    have haq : ∀ c ∈ a, ¬ c = '\"' := by
      intro c hc heq
      have hcp := List.all_eq_true.mp hpa c hc
      rw [heq] at hcp
      simp [plainChar] at hcp
    have htl : ∀ x ∈ tl, plainTag x = true := fun x hx => hptags x (List.mem_cons_of_mem a hx)
    have hesc : escStr a = a := escStr_eq_self hpa
    cases tl with
    | nil =>
      have hshape : encodeInner [a] ++ [']'] = '\"' :: (a ++ '\"' :: [']']) := by
        simp [encodeInner, quoteStr, hesc]
      rw [hshape]
      constructor
      · intro h
        rcases List.infix_cons_iff.mp h with hp | hi
        · obtain ⟨r, hr⟩ := hp
          simp only [List.cons_append, List.cons.injEq] at hr
          obtain ⟨-, hr2⟩ := hr
          have hr3 : t ++ '\"' :: r = a ++ '\"' :: [']'] := by
            simpa [List.append_assoc] using hr2
          obtain ⟨he, -⟩ := eq_of_quotefree t a r [']'] htq haq hr3
          simp [he]
        · exfalso
          have h2 := quote_skip a ('\"' :: [']']) (t ++ ['\"']) haq hi
          have hlen := h2.length_le
          simp only [List.length_cons, List.length_append] at hlen
          have ht0 : t = [] := List.length_eq_zero.mp (by omega)
          subst ht0
          obtain ⟨u, v, huv⟩ := h2
          have hlen2 := congrArg List.length huv
          simp only [List.length_append, List.length_cons, List.nil_append] at hlen2
          have hu : u = [] := List.length_eq_zero.mp (by omega)
          have hv : v = [] := List.length_eq_zero.mp (by omega)
          subst hu
          subst hv
          simp at huv
      · intro h
        have ht' : t = a := by simpa using h
        subst ht'
        exact ⟨[], [']'], by simp⟩
    | cons b tl' =>
      have hshape : encodeInner (a :: b :: tl') ++ [']'] =
          '\"' :: (a ++ '\"' :: ',' :: (encodeInner (b :: tl') ++ [']'])) := by
        rw [encodeInner_cons₂]
        simp [quoteStr, hesc]
      rw [hshape]
      constructor
      · intro h
        rcases List.infix_cons_iff.mp h with hp | hi
        · obtain ⟨r, hr⟩ := hp
          simp only [List.cons_append, List.cons.injEq] at hr
          obtain ⟨-, hr2⟩ := hr
          have hr3 : t ++ '\"' :: r = a ++ '\"' :: (',' :: (encodeInner (b :: tl') ++ [']'])) := by
            simpa [List.append_assoc] using hr2
          obtain ⟨he, -⟩ := eq_of_quotefree t a r _ htq haq hr3
          simp [he]
        · have h2 := quote_skip a _ (t ++ ['\"']) haq hi
          rcases List.infix_cons_iff.mp h2 with hp2 | hi2
          · exfalso
            obtain ⟨r, hr⟩ := hp2
            simp only [List.cons_append, List.cons.injEq] at hr
            obtain ⟨-, hr2⟩ := hr
            cases t with
            | nil => simp at hr2
            | cons c t' =>
              simp only [List.cons_append, List.cons.injEq] at hr2
              exact absurd hr2.1 (htc c (List.mem_cons_self c t'))
          · rcases List.infix_cons_iff.mp hi2 with hp3 | hi3
            · exfalso
              obtain ⟨r, hr⟩ := hp3
              simp only [List.cons_append, List.cons.injEq] at hr
              exact absurd hr.1 (by decide)
            · exact List.mem_cons_of_mem a ((ih htl).mp hi3)
      · intro hmem
        rcases List.mem_cons.mp hmem with he | hm
        · subst he
          exact ⟨[], ',' :: (encodeInner (b :: tl') ++ [']']), by simp⟩
        · obtain ⟨u, v, huv⟩ := (ih htl).mpr hm
          refine ⟨'\"' :: (a ++ '\"' :: ',' :: u), v, ?_⟩
          rw [← huv]
          simp [List.append_assoc]

theorem quoted_infix_encodeTags (t : List Char) (htq : ∀ c ∈ t, ¬ c = '\"')
    (htc : ∀ c ∈ t, ¬ c = ',') (tags : List (List Char))
    (hptags : ∀ a ∈ tags, plainTag a = true) :
    (('\"' :: t ++ ['\"']) <:+: encodeTags tags ↔ t ∈ tags) := by
  have hshape : encodeTags tags = '[' :: (encodeInner tags ++ [']']) := by
    simp [encodeTags]
  rw [hshape]
  constructor
  · intro h
    rcases List.infix_cons_iff.mp h with hp | hi
    · obtain ⟨r, hr⟩ := hp
      simp only [List.cons_append, List.cons.injEq] at hr
      exact absurd hr.1 (by decide)
    · exact (quoted_infix_inner t htq htc tags hptags).mp hi
  · intro hm
    obtain ⟨u, v, huv⟩ := (quoted_infix_inner t htq htc tags hptags).mpr hm
    refine ⟨'[' :: u, v, ?_⟩
    rw [← huv]
    simp

theorem plainTag_foldMap (a : List Char) (h : plainTag a = true) :
    plainTag (a.map foldChar) = true := by
  rw [plainTag, List.all_eq_true]
  intro x hx
  obtain ⟨c, hc, rfl⟩ := List.mem_map.mp hx
  exact plainChar_foldChar (List.all_eq_true.mp h c hc)

theorem fold_encodeInner : ∀ tags : List (List Char), (∀ a ∈ tags, plainTag a = true) →
    (encodeInner tags).map foldChar = encodeInner (tags.map (fun a => a.map foldChar)) := by
  intro tags
  induction tags with
  | nil => intro _; rfl
  | cons a tl ih =>
    intro hp
    have hpa := hp a (List.mem_cons_self a tl)
    have hpa' := plainTag_foldMap a hpa
    have htl : ∀ x ∈ tl, plainTag x = true := fun x hx => hp x (List.mem_cons_of_mem a hx)
    cases tl with
    | nil =>
      simp [encodeInner, quoteStr, escStr_eq_self hpa, escStr_eq_self hpa', foldChar_quote]
    | cons b tl' =>
      have ih' := ih htl
      simp only [List.map_cons] at ih'
      simp only [List.map_cons]
      rw [encodeInner_cons₂, encodeInner_cons₂]
      simp only [quoteStr, List.map_append, List.map_cons, escStr_eq_self hpa,
        escStr_eq_self hpa', foldChar_quote, foldChar_comma, ih']
      simp

theorem fold_encodeTags (tags : List (List Char)) (hp : ∀ a ∈ tags, plainTag a = true) :
    (encodeTags tags).map foldChar = encodeTags (tags.map (fun a => a.map foldChar)) := by
  have hl : foldChar '[' = '[' := by decide
  have hr : foldChar ']' = ']' := by decide
  simp [encodeTags, List.map_append, fold_encodeInner tags hp, hl, hr]

theorem filterSafeChar_facts (c : Char) (h : filterSafeChar c = true) :
    ¬ c = '\"' ∧ ¬ c = ',' ∧ ¬ c = '%' ∧ ¬ c = '_' := by
  simp only [filterSafeChar, plainChar, Bool.and_eq_true, decide_eq_true_eq, bne_iff_ne,
    ne_eq, decide_eq_true_eq] at h
  tauto

theorem likeMatch_encodeTags_iff (t : List Char) (ts : List (List Char))
    (ht : filterSafe t = true) (hts : ∀ a ∈ ts, plainTag a = true) :
    (likeMatch (tagPattern t) (encodeTags ts) = true ↔
      ∃ a ∈ ts, a.map foldChar = t.map foldChar) := by
  have hsafe : ∀ c ∈ t, filterSafeChar c = true := fun c hc => List.all_eq_true.mp ht c hc
  have htw : t.all (fun c => ¬ c = '%' && ¬ c = '_') = true := by
    rw [List.all_eq_true]
    intro c hc
    have hf := filterSafeChar_facts c (hsafe c hc)
    simp [hf.2.2.1, hf.2.2.2]
  rw [likeMatch_tagPattern_iff t _ htw, fold_encodeTags ts hts]
  have hfq : ∀ c ∈ t.map foldChar, ¬ c = '\"' := by
    intro c hc
    obtain ⟨c0, hc0, rfl⟩ := List.mem_map.mp hc
    exact (filterSafeChar_facts _ (filterSafeChar_foldChar (hsafe c0 hc0))).1
  have hfc : ∀ c ∈ t.map foldChar, ¬ c = ',' := by
    intro c hc
    obtain ⟨c0, hc0, rfl⟩ := List.mem_map.mp hc
    exact (filterSafeChar_facts _ (filterSafeChar_foldChar (hsafe c0 hc0))).2.1
  have hfp : ∀ a ∈ ts.map (fun a => a.map foldChar), plainTag a = true := by
    intro a ha
    obtain ⟨a0, ha0, rfl⟩ := List.mem_map.mp ha
    exact plainTag_foldMap a0 (hts a0 ha0)
  rw [quoted_infix_encodeTags _ hfq hfc _ hfp]
  simp only [List.mem_map]

end TagFilterEncoding

section TagFilterMain

theorem mapM_option_mem {α β : Type} (f : α → Option β) : ∀ l : List α,
    (∀ x ∈ l, ∃ y, f x = some y) →
    ∃ out, mapMO f l = some out ∧ ∀ y, (y ∈ out ↔ ∃ x ∈ l, f x = some y) := by
  intro l
  induction l with
  | nil =>
    intro _
    exact ⟨[], rfl, by simp⟩
  | cons x xs ih =>
    intro h
    obtain ⟨y, hy⟩ := h x (List.mem_cons_self x xs)
    obtain ⟨out, hout, hmem⟩ := ih (fun z hz => h z (List.mem_cons_of_mem x hz))
    refine ⟨y :: out, ?_, ?_⟩
    · simp [mapMO, hy, hout]
    · intro z
      simp only [List.mem_cons]
      constructor
      · rintro (rfl | hz)
        · exact ⟨x, Or.inl rfl, hy⟩
        · obtain ⟨w, hw, hfw⟩ := (hmem z).mp hz
          exact ⟨w, Or.inr hw, hfw⟩
      · rintro ⟨w, hw, hfw⟩
        rcases hw with rfl | hw'
        · left
          rw [hy] at hfw
          exact (Option.some.inj hfw).symm
        · right
          exact (hmem z).mpr ⟨w, hw', hfw⟩

theorem map_row_tags (row : NoteRow) (ts : List (List Char)) (nt : Note)
    (h1 : row.tagsText = encodeTags ts) (h2 : map_row_to_note row = some nt) :
    nt.tags = ts := by
  simp only [map_row_to_note, h1, decode_encode, Option.map_some'] at h2
  rw [← Option.some.inj h2]

/-- C2 (amended): when the filter string `t` contains none of `"`, `\`, `%`,
`_`, `,` and no control character, and every stored note's tags column is the
serialization of tags free of `"`, `\` and control characters, then
`get_notes_db` with the tag filter `t` returns exactly the notes whose tag
sequence contains an element equal to `t` up to ASCII letter case (SQLite
`LIKE` is ASCII-case-insensitive, so the match is exact only up to case). -/
theorem tag_filter_exact_match (st : Store) (t : List Char) (ht : filterSafe t = true)
    (hwf : ∀ n ∈ st.notes, ∃ ts, (∀ a ∈ ts, plainTag a = true) ∧ n.tagsText = encodeTags ts) :
    ∃ out, get_notes_db st none (some t) none none = some out ∧
      ∀ nt : Note, nt ∈ out ↔
        ∃ row ∈ st.notes, map_row_to_note row = some nt ∧
          ∃ a ∈ nt.tags, a.map foldChar = t.map foldChar := by
  simp only [get_notes_db, Bool.and_true]
  have hdec : ∀ row ∈ sortB (fun a b : NoteRow => b.created_at ≤ a.created_at)
      (st.notes.filter (fun n => likeMatch (tagPattern t) n.tagsText)),
      ∃ y, map_row_to_note row = some y := by
    intro row hrow
    have hrow' := (mem_sortB _ _ _).mp hrow
    obtain ⟨ts, -, htext⟩ := hwf row (List.mem_filter.mp hrow').1
    exact ⟨⟨row.id, row.content, ts, row.created_at, row.updated_at⟩,
      by simp [map_row_to_note, htext, decode_encode]⟩
  obtain ⟨out, hout, hmem⟩ := mapM_option_mem map_row_to_note _ hdec
  refine ⟨out, hout, ?_⟩
  intro nt
  rw [hmem nt]
  constructor
  · rintro ⟨row, hrow, hdecode⟩
    have hrow' := (mem_sortB _ _ _).mp hrow
    have hmem2 := (List.mem_filter.mp hrow').1
    have hlike := (List.mem_filter.mp hrow').2
    obtain ⟨ts, hts, htext⟩ := hwf row hmem2
    rw [htext] at hlike
    have hex := (likeMatch_encodeTags_iff t ts ht hts).mp hlike
    refine ⟨row, hmem2, hdecode, ?_⟩
    rw [map_row_tags row ts nt htext hdecode]
    exact hex
  · rintro ⟨row, hrowmem, hdecode, a, ha, hfold⟩
    obtain ⟨ts, hts, htext⟩ := hwf row hrowmem
    have htags := map_row_tags row ts nt htext hdecode
    have hlike : likeMatch (tagPattern t) row.tagsText = true := by
      rw [htext]
      refine (likeMatch_encodeTags_iff t ts ht hts).mpr ⟨a, ?_, hfold⟩
      rw [← htags]
      exact ha
    exact ⟨row, (mem_sortB _ _ _).mpr (List.mem_filter.mpr ⟨hrowmem, hlike⟩), hdecode⟩

/-- C2 witness: the amended statement at a one-note store tagged `a` with
filter `a`. -/
theorem tag_filter_exact_match_witness :
    ∃ out, get_notes_db ⟨[⟨1, [], encodeTags [['a']], 0, 0⟩], [], 2, 1⟩ none (some ['a'])
        none none = some out ∧
      ∀ nt : Note, nt ∈ out ↔
        ∃ row ∈ (⟨[⟨1, [], encodeTags [['a']], 0, 0⟩], [], 2, 1⟩ : Store).notes,
          map_row_to_note row = some nt ∧
            ∃ a ∈ nt.tags, a.map foldChar = ['a'].map foldChar :=
  tag_filter_exact_match ⟨[⟨1, [], encodeTags [['a']], 0, 0⟩], [], 2, 1⟩ ['a'] (by decide)
    (by
      intro n hn
      refine ⟨[['a']], by decide, ?_⟩
      rw [List.mem_singleton] at hn
      subst hn
      rfl)

/-- C2 counterexample: filtering with the tag string `%` returns a note
tagged only `a%b` — `%` is not an element of that note's tag sequence, it is
a proper substring of the tag `a%b` — because `%` is a LIKE wildcard.  This
refutes both the exact-element claim and the claim that a note tagged only
with a superstring of `t` is never returned. -/
theorem tag_filter_counterexample :
    get_notes_db ⟨[⟨1, [], encodeTags [['a', '%', 'b']], 0, 0⟩], [], 2, 1⟩ none
        (some ['%']) none none = some [⟨1, [], [['a', '%', 'b']], 0, 0⟩]
    ∧ ¬ (['%'] ∈ [['a', '%', 'b']])
    ∧ ['%'] <:+: ['a', '%', 'b'] ∧ ['%'] ≠ ['a', '%', 'b'] := by
  refine ⟨by decide, by decide, ⟨['a'], ['b'], rfl⟩, by decide⟩

end TagFilterMain

example : decodeTags (encodeTags [['x'], ['x']]) = some [['x'], ['x']] := by decide

example : decodeTags (encodeTags []) = some [] := by decide

example : decodeTags (encodeTags [['a', '\"', 'b']]) = some [['a', '\"', 'b']] := by decide

example : likeMatch (tagPattern ['x']) (encodeTags [['x'], ['y']]) = true := by decide

example : likeMatch (tagPattern ['x']) (encodeTags [['x', 'y', 'z']]) = false := by decide

example : likeMatch (tagPattern ['%']) (encodeTags [['a', '%', 'b']]) = true := by decide

example : likeMatch (tagPattern ['a']) (encodeTags [['A']]) = true := by decide

end AwInbox
